import Mathlib

unseal Rat.add Rat.mul Rat.inv Rat.sub

/-!
# Verification of the DiffDRR rendering core

Shallow embedding of the rendering core of the DiffDRR repository
(`diffdrr/renderers.py`, `diffdrr/drr.py`, `diffdrr/data.py`), over exact
rational arithmetic.  Tensors are modelled as lists (the batch of rays as a
list of rays, a volume as a flattened row-major list of voxel values), and the
pointwise tensor operations as list maps.  The single non-rational operation
of the core, the Euclidean norm used for the final ray-length scaling, is
modelled with `Real.sqrt` of the (rational) squared norm.

`torch.nn.functional.grid_sample` is modelled following its documented
semantics for the arguments used by the source (`align_corners=True` and the
default `padding_mode="zeros"`): a normalized coordinate `g` on an axis of
size `n` is unnormalized to `(g + 1) / 2 * (n - 1)`; in `nearest` mode the
value at the rounded index is returned if it is inside the grid and `0`
otherwise; in `bilinear` (trilinear) mode the eight surrounding corners are
blended, out-of-grid corners contributing `0`.  PyTorch's tie-breaking for
`nearest` at exact half-integers is device dependent (round half to even on
CPU, round half away from zero on CUDA); we model rounding with Mathlib's
`round` (half up), and no statement below depends on the tie direction.
-/

namespace DiffDRR

/-! ## List minimum / maximum helpers

Model of `torch.Tensor.min()` / `.max()`, which reduce a nonempty tensor to a
scalar and raise on an empty tensor (hence the `Option`). -/

def listMin {α : Type} [LinearOrder α] : List α → Option α
  | [] => none
  | a :: l =>
    some (match listMin l with
          | none => a
          | some b => min a b)

def listMax {α : Type} [LinearOrder α] : List α → Option α
  | [] => none
  | a :: l =>
    some (match listMax l with
          | none => a
          | some b => max a b)

theorem listMin_isSome {α : Type} [LinearOrder α] {l : List α} (h : l ≠ []) :
    ∃ a, listMin l = some a := by
  cases l with
  | nil => exact absurd rfl h
  | cons a l => exact ⟨_, rfl⟩

theorem listMax_isSome {α : Type} [LinearOrder α] {l : List α} (h : l ≠ []) :
    ∃ a, listMax l = some a := by
  cases l with
  | nil => exact absurd rfl h
  | cons a l => exact ⟨_, rfl⟩

theorem listMin_le {α : Type} [LinearOrder α] :
    ∀ {l : List α} {a : α}, listMin l = some a → ∀ b ∈ l, a ≤ b := by
  intro l
  induction l with
  | nil => intro a h; simp [listMin] at h
  | cons c l ih =>
    intro a h b hb
    simp only [listMin] at h
    cases hl : listMin l with
    | none =>
      rw [hl] at h
      simp only [Option.some.injEq] at h
      rcases List.mem_cons.mp hb with rfl | hb
      · exact le_of_eq h.symm
      · rcases l with _ | ⟨x, xs⟩
        · simp at hb
        · simp [listMin] at hl
    | some m =>
      rw [hl] at h
      simp only [Option.some.injEq] at h
      rcases List.mem_cons.mp hb with rfl | hb
      · rw [← h]; exact min_le_left _ _
      · rw [← h]; exact le_trans (min_le_right _ _) (ih hl b hb)

theorem listMax_ge {α : Type} [LinearOrder α] :
    ∀ {l : List α} {a : α}, listMax l = some a → ∀ b ∈ l, b ≤ a := by
  intro l
  induction l with
  | nil => intro a h; simp [listMax] at h
  | cons c l ih =>
    intro a h b hb
    simp only [listMax] at h
    cases hl : listMax l with
    | none =>
      rw [hl] at h
      simp only [Option.some.injEq] at h
      rcases List.mem_cons.mp hb with rfl | hb
      · exact le_of_eq h
      · rcases l with _ | ⟨x, xs⟩
        · simp at hb
        · simp [listMax] at hl
    | some m =>
      rw [hl] at h
      simp only [Option.some.injEq] at h
      rcases List.mem_cons.mp hb with rfl | hb
      · rw [← h]; exact le_max_left _ _
      · rw [← h]; exact le_trans (ih hl b hb) (le_max_right _ _)

theorem listMin_mem {α : Type} [LinearOrder α] :
    ∀ {l : List α} {a : α}, listMin l = some a → a ∈ l := by
  intro l
  induction l with
  | nil => intro a h; simp [listMin] at h
  | cons c l ih =>
    intro a h
    simp only [listMin] at h
    cases hl : listMin l with
    | none =>
      rw [hl] at h
      simp only [Option.some.injEq] at h
      exact h ▸ List.mem_cons_self c l
    | some m =>
      rw [hl] at h
      simp only [Option.some.injEq] at h
      rcases min_choice c m with hc | hc
      · rw [← h, hc]; exact List.mem_cons_self c l
      · rw [← h, hc]; exact List.mem_cons_of_mem c (ih hl)

theorem listMax_mem {α : Type} [LinearOrder α] :
    ∀ {l : List α} {a : α}, listMax l = some a → a ∈ l := by
  intro l
  induction l with
  | nil => intro a h; simp [listMax] at h
  | cons c l ih =>
    intro a h
    simp only [listMax] at h
    cases hl : listMax l with
    | none =>
      rw [hl] at h
      simp only [Option.some.injEq] at h
      exact h ▸ List.mem_cons_self c l
    | some m =>
      rw [hl] at h
      simp only [Option.some.injEq] at h
      rcases max_choice c m with hc | hc
      · rw [← h, hc]; exact List.mem_cons_self c l
      · rw [← h, hc]; exact List.mem_cons_of_mem c (ih hl)

/-- `listMax` commutes with subtracting a constant from every element
(`max (l − c) = max l − c`), used to relate the source's two-step
normalization `(D − min D) / max (D − min D)` to the specification's
`(D − min D) / (max D − min D)`. -/
theorem listMax_map_sub (c : ℚ) :
    ∀ (l : List ℚ), listMax (l.map (fun x => x - c)) = (listMax l).map (fun x => x - c) := by
  intro l
  induction l with
  | nil => simp [listMax]
  | cons a l ih =>
    simp only [List.map, listMax, ih]
    cases hl : listMax l with
    | none => simp
    | some m =>
      simp only [Option.map_some']
      have : min (a - c) (m - c) = min a m - c := by
        rcases le_total a m with h | h
        · rw [min_eq_left h, min_eq_left (by linarith)]
        · rw [min_eq_right h, min_eq_right (by linarith)]
      have hmax : max (a - c) (m - c) = max a m - c := by
        rcases le_total a m with h | h
        · rw [max_eq_right h, max_eq_right (by linarith)]
        · rw [max_eq_left h, max_eq_left (by linarith)]
      simp [hmax]

/-! ## Density Transform — `drr.py::set_bone_attenuation_multiplier` and
`data.py::transform_hu_to_density`

The raw volume is a flattened list of intensities (Hounsfield units).  The
three tissue classes use the source's thresholds: air `≤ −800`,
soft tissue `(−800, 350]`, bone `> 350`.  Voxel values after the final
division are modelled as `Option ℚ`: `none` stands for the float `NaN`
produced when the division `0 / 0` is executed (the degenerate constant
volume), `some q` for an ordinary finite value.  The whole result is an
`Option` list because `torch.min()` raises on an empty tensor: when the
volume has no soft-tissue voxel, `volume[soft_tissue].min()` raises, which we
model as `none`. -/

def isAirB (v : ℚ) : Bool := decide (v ≤ -800)

def isSoftB (v : ℚ) : Bool := decide (-800 < v) && decide (v ≤ 350)

def isBoneB (v : ℚ) : Bool := decide (350 < v)

/-- Minimum raw value among soft-tissue voxels (`volume[soft_tissue].min()`). -/
def softMin (vol : List ℚ) : Option ℚ := listMin (vol.filter isSoftB)

/-- Per-voxel reweighting: air voxels are floored to the minimum soft-tissue
value `s`, soft-tissue voxels keep their raw value, bone voxels are scaled by
the bone attenuation multiplier `m`. -/
def rwv (s m v : ℚ) : ℚ := if isAirB v then s else if isSoftB v then v else v * m

/-- `density[air] = volume[soft_tissue].min(); density[soft_tissue] = ...;
density[bone] = volume[bone] * bone_attenuation_multiplier` as one map. -/
def reweight (vol : List ℚ) (m s : ℚ) : List ℚ := vol.map (rwv s m)

/-- `drr.py::DRR.set_bone_attenuation_multiplier`: reweight the raw volume by
class, then `density -= density.min(); density /= density.max()`.  The final
division is unguarded in the source; when `density.max()` is `0` after the
shift every entry is `0 / 0 = NaN`, modelled as `none`. -/
def setBoneAttenuationMultiplier (vol : List ℚ) (m : ℚ) : Option (List (Option ℚ)) :=
  match softMin vol with
  | none => none
  | some s =>
    let d := reweight vol m s
    let mn := (listMin d).getD 0
    let d2 := d.map (fun x => x - mn)
    let mx := (listMax d2).getD 0
    some (d2.map (fun x => if mx = 0 then none else some (x / mx)))

/-- `data.py::transform_hu_to_density`: identical pipeline with no bone
multiplier (bone voxels keep their raw value). -/
def transform_hu_to_density (vol : List ℚ) : Option (List (Option ℚ)) :=
  setBoneAttenuationMultiplier vol 1

/-! ## Geometry — rays, volumes and the Intersection Engine
(`renderers.py::_get_alphas`, `_get_alpha_minmax`,
`_filter_intersections_outside_volume`) -/

/-- A 3-vector of exact rationals (one row of the `(B, N, 3)` source/target
tensors). -/
structure V3 where
  x : ℚ
  y : ℚ
  z : ℚ
deriving DecidableEq

/-- One ray: source point `S` and target point `T` in the volume's continuous
voxel-index coordinates. -/
structure Ray where
  S : V3
  T : V3
deriving DecidableEq

/-- Volume shape `(nx, ny, nz)` (`volume.shape`). -/
structure Dims where
  nx : ℕ
  ny : ℕ
  nz : ℕ
deriving DecidableEq

/-- A CT volume: shape plus a flattened row-major data list, voxel `(i, j, k)`
stored at index `i * (ny * nz) + j * nz + k` as in a contiguous
`torch` tensor. -/
structure Volume where
  dims : Dims
  data : List ℚ

/-- An integer class-mask volume with the same layout. -/
structure MaskVol where
  dims : Dims
  data : List ℕ

/-- Boundary-plane offsets of one axis: `torch.arange(dim + 1) - 0.5`,
i.e. `-0.5, 0.5, …, dim - 0.5`. -/
def planes (n : ℕ) : List ℚ := (List.range (n + 1)).map (fun i : ℕ => (i : ℚ) - 1/2)

/-- Parametric crossings of one ray with the planes of one axis:
`(plane - s) / (t - s + eps)`. -/
def axisAlphas (s t eps : ℚ) (n : ℕ) : List ℚ :=
  (planes n).map (fun p => (p - s) / (t - s + eps))

/-- `_get_alphas` before filtering: all crossings of the three axes,
concatenated and sorted ascending (`torch.sort`, stable). -/
def getAlphasRaw (r : Ray) (dims : Dims) (eps : ℚ) : List ℚ :=
  (axisAlphas r.S.x r.T.x eps dims.nx ++ axisAlphas r.S.y r.T.y eps dims.ny ++
    axisAlphas r.S.z r.T.z eps dims.nz).insertionSort (· ≤ ·)

/-- Number of crossings of every ray: `(nx + 1) + (ny + 1) + (nz + 1)`. -/
def numCrossings (dims : Dims) : ℕ := dims.nx + dims.ny + dims.nz + 3

theorem length_getAlphasRaw (r : Ray) (dims : Dims) (eps : ℚ) :
    (getAlphasRaw r dims eps).length = numCrossings dims := by
  unfold getAlphasRaw axisAlphas planes numCrossings
  rw [List.length_insertionSort, List.length_append, List.length_append, List.length_map,
    List.length_map, List.length_map, List.length_map, List.length_map, List.length_map,
    List.length_range, List.length_range, List.length_range]
  omega

/-- `_get_alpha_minmax`: per-axis crossings with the planes at offsets `0` and
`dims - 1`, reduced by max-of-mins / min-of-maxes over the axes, then
`α_min` clipped below at `0` and `α_max` clipped above at `1`. -/
def getAlphaMinMax (r : Ray) (dims : Dims) (eps : ℚ) : ℚ × ℚ :=
  let dx := r.T.x - r.S.x + eps
  let dy := r.T.y - r.S.y + eps
  let dz := r.T.z - r.S.z + eps
  let a0x := (0 - r.S.x) / dx
  let a0y := (0 - r.S.y) / dy
  let a0z := (0 - r.S.z) / dz
  let a1x := ((dims.nx : ℚ) - 1 - r.S.x) / dx
  let a1y := ((dims.ny : ℚ) - 1 - r.S.y) / dy
  let a1z := ((dims.nz : ℚ) - 1 - r.S.z) / dz
  let amin := max (max (min a0x a1x) (min a0y a1y)) (min a0z a1z)
  let amax := min (min (max a0x a1x) (max a0y a1y)) (max a0z a1z)
  (if amin < 0 then 0 else amin, if amax > 1 then 1 else amax)

/-- Is the crossing value `v` within the ray's own `[α_min, α_max]` bounds? -/
def inBounds (r : Ray) (dims : Dims) (eps : ℚ) (v : ℚ) : Prop :=
  (getAlphaMinMax r dims eps).1 ≤ v ∧ v ≤ (getAlphaMinMax r dims eps).2

instance (r : Ray) (dims : Dims) (eps v : ℚ) : Decidable (inBounds r dims eps v) := by
  unfold inBounds; infer_instance

/-- `good_idxs.any(dim=[0, 1])` of `_filter_intersections_outside_volume`:
for each rank position `k` of the sorted crossing sequence, whether at least
one ray of the batch has its `k`-th crossing inside its own bounds. -/
def goodMask (rays : List Ray) (dims : Dims) (eps : ℚ) : List Bool :=
  (List.range (numCrossings dims)).map
    (fun k => rays.any (fun r => decide (inBounds r dims eps ((getAlphasRaw r dims eps).getD k 0))))

/-- Boolean-mask indexing along the last tensor dimension: keep the entries of
`row` at the positions where `mask` is `true`. -/
def maskFilter (mask : List Bool) (row : List ℚ) : List ℚ :=
  ((row.zip mask).filter (fun p => p.2)).map (fun p => p.1)

/-- The filtered sorted crossing sequence of ray `r` as a member of the batch
`rays` (`_get_alphas` with `filter_intersections_outside_volume`
controlled by `filt`). -/
def getAlphas (rays : List Ray) (dims : Dims) (eps : ℚ) (filt : Bool) (r : Ray) : List ℚ :=
  if filt then maskFilter (goodMask rays dims eps) (getAlphasRaw r dims eps)
  else getAlphasRaw r dims eps

/-- Midpoints of adjacent crossing pairs: `(alphas[..., :-1] + alphas[..., 1:]) / 2`. -/
def midpoints (l : List ℚ) : List ℚ := (l.zip l.tail).map (fun p => (p.1 + p.2) / 2)

/-- Segment lengths: `torch.diff(alphas, dim=-1)`. -/
def diffs (l : List ℚ) : List ℚ := (l.zip l.tail).map (fun p => p.2 - p.1)

/-- World point on the (ε-perturbed) ray at parameter `α`:
`source + alpha * (target - source + eps)` (`_get_xyzs`, first step). -/
def pointAt (r : Ray) (eps α : ℚ) : V3 :=
  ⟨r.S.x + α * (r.T.x - r.S.x + eps),
   r.S.y + α * (r.T.y - r.S.y + eps),
   r.S.z + α * (r.T.z - r.S.z + eps)⟩

/-- `_get_xyzs`, second step: normalize a voxel-index coordinate to the
sampler's domain, `2 * p / dim - 1`. -/
def normCoord (p : ℚ) (n : ℕ) : ℚ := 2 * p / (n : ℚ) - 1

/-- The normalized sampling coordinate of a ray at parameter `α`. -/
def xyzAt (r : Ray) (dims : Dims) (eps α : ℚ) : V3 :=
  let pt := pointAt r eps α
  ⟨normCoord pt.x dims.nx, normCoord pt.y dims.ny, normCoord pt.z dims.nz⟩

/-! ## Sampler — `renderers.py::_get_voxel` via `grid_sample`
(`align_corners=True`, default `padding_mode="zeros"`).

The source permutes the volume to `(nz, ny, nx)` before `grid_sample`; since
the grid's last dimension is read as `(x, y, z)` with `x` indexing the
innermost (size `nx`) axis, the permutation and the grid convention cancel:
the sample at normalized coordinate `(gx, gy, gz)` reads the original volume
at index `(ix, iy, iz)` with each axis unnormalized by its own size. -/

/-- `align_corners=True` unnormalization: `-1 ↦ 0`, `+1 ↦ n - 1`. -/
def unnormalize (g : ℚ) (n : ℕ) : ℚ := (g + 1) / 2 * ((n : ℚ) - 1)

/-- Zero-padded voxel read at an integer index triple. -/
def valAt (V : Volume) (i j k : ℤ) : ℚ :=
  if 0 ≤ i ∧ i < V.dims.nx ∧ 0 ≤ j ∧ j < V.dims.ny ∧ 0 ≤ k ∧ k < V.dims.nz then
    V.data.getD (i.toNat * (V.dims.ny * V.dims.nz) + j.toNat * V.dims.nz + k.toNat) 0
  else 0

/-- Zero-padded class-mask read at an integer index triple. -/
def maskValAt (M : MaskVol) (i j k : ℤ) : ℕ :=
  if 0 ≤ i ∧ i < M.dims.nx ∧ 0 ≤ j ∧ j < M.dims.ny ∧ 0 ≤ k ∧ k < M.dims.nz then
    M.data.getD (i.toNat * (M.dims.ny * M.dims.nz) + j.toNat * M.dims.nz + k.toNat) 0
  else 0

/-- `grid_sample(..., mode="nearest", align_corners=True)` with zero padding. -/
def sampleNearest (V : Volume) (g : V3) : ℚ :=
  valAt V (round (unnormalize g.x V.dims.nx)) (round (unnormalize g.y V.dims.ny))
    (round (unnormalize g.z V.dims.nz))

/-- Nearest sampling of the class mask (`_get_voxel(mask, xyzs)` followed by
`.long()`). -/
def sampleNearestMask (M : MaskVol) (g : V3) : ℕ :=
  maskValAt M (round (unnormalize g.x M.dims.nx)) (round (unnormalize g.y M.dims.ny))
    (round (unnormalize g.z M.dims.nz))

/-- `grid_sample(..., mode="bilinear", align_corners=True)` with zero padding:
trilinear blend of the eight surrounding corners, out-of-grid corners
contributing `0`. -/
def sampleTrilinear (V : Volume) (g : V3) : ℚ :=
  let ux := unnormalize g.x V.dims.nx
  let uy := unnormalize g.y V.dims.ny
  let uz := unnormalize g.z V.dims.nz
  let ix := Int.floor ux
  let iy := Int.floor uy
  let iz := Int.floor uz
  let wx := ux - ix
  let wy := uy - iy
  let wz := uz - iz
  (1 - wx) * (1 - wy) * (1 - wz) * valAt V ix iy iz +
    wx * (1 - wy) * (1 - wz) * valAt V (ix + 1) iy iz +
    (1 - wx) * wy * (1 - wz) * valAt V ix (iy + 1) iz +
    wx * wy * (1 - wz) * valAt V (ix + 1) (iy + 1) iz +
    (1 - wx) * (1 - wy) * wz * valAt V ix iy (iz + 1) +
    wx * (1 - wy) * wz * valAt V (ix + 1) iy (iz + 1) +
    (1 - wx) * wy * wz * valAt V ix (iy + 1) (iz + 1) +
    wx * wy * wz * valAt V (ix + 1) (iy + 1) (iz + 1)

/-! ## Integrators — `renderers.py::Siddon.forward` and `Trilinear.forward`

The accumulated per-ray value before the final multiplication by the ray
length is a rational; the final `(target - source + eps).norm()` factor is
`Real.sqrt` of the rational squared norm, so the rendered pixel values live
in `ℝ`. -/

/-- Squared Euclidean norm of `target - source + eps` (the broadcast scalar
`eps` is added to every component, exactly as in the source). -/
def normSq (r : Ray) (eps : ℚ) : ℚ :=
  (r.T.x - r.S.x + eps) ^ 2 + (r.T.y - r.S.y + eps) ^ 2 + (r.T.z - r.S.z + eps) ^ 2

/-- Ray length `(target - source + eps).norm(dim=-1)`. -/
noncomputable def rayLength (r : Ray) (eps : ℚ) : ℝ := Real.sqrt ((normSq r eps : ℚ) : ℝ)

/-- Per-segment weighted samples of one ray (`img * intersection_length`):
sample the volume at the midpoint of each adjacent crossing pair and weight by
the segment length `torch.diff(alphas)`. -/
def siddonRayTerms (V : Volume) (r : Ray) (eps : ℚ) (alphas : List ℚ) : List ℚ :=
  (((midpoints alphas).map (fun α => sampleNearest V (xyzAt r V.dims eps α))).zip
      (diffs alphas)).map (fun p => p.1 * p.2)

/-- Per-ray accumulation of `Siddon.forward` (no mask), before the ray-length
multiplication (`img.sum(dim=-1)`). -/
def siddonRaySum (V : Volume) (r : Ray) (eps : ℚ) (alphas : List ℚ) : ℚ :=
  (siddonRayTerms V r eps alphas).sum

/-- The ℚ-valued per-ray outputs of `Siddon.forward` before ray-length
scaling, for a whole batch (`filt` is `filter_intersections_outside_volume`). -/
def siddonSums (V : Volume) (rays : List Ray) (eps : ℚ) (filt : Bool) : List ℚ :=
  rays.map (fun r => siddonRaySum V r eps (getAlphas rays V.dims eps filt r))

/-- `Siddon.forward` with `mask=None`: one scalar per ray,
`(Σ_segments sample · Δα) · ‖T - S + ε‖`. -/
noncomputable def siddonForward (V : Volume) (rays : List Ray) (eps : ℚ) (filt : Bool) :
    List ℝ :=
  rays.map (fun r =>
    ((siddonRaySum V r eps (getAlphas rays V.dims eps filt r) : ℚ) : ℝ) * rayLength r eps)

/-- `C = int(mask.max().item() + 1)`: number of class channels. -/
def numChannels (M : MaskVol) : ℕ := (listMax M.data).getD 0 + 1

/-- `torch.zeros(B, C, D).scatter_add_(1, channels, img)` for one ray: bucket
the per-segment weighted samples `ws` into `C` channels by the per-segment
channel indices `chs`. -/
def scatterAdd (C : ℕ) (chs : List ℕ) (ws : List ℚ) : List ℚ :=
  (List.range C).map (fun c => (((chs.zip ws).filter (fun p => p.1 == c)).map
    (fun p => p.2)).sum)

/-- Per-segment channel indices of one ray: nearest-sample the class mask at
the same midpoints (`_get_voxel(mask, xyzs)` followed by `.long()`). -/
def rayChannels (M : MaskVol) (r : Ray) (eps : ℚ) (alphas : List ℚ) : List ℕ :=
  (midpoints alphas).map (fun α => sampleNearestMask M (xyzAt r M.dims eps α))

/-- `Siddon.forward` with a class mask: one scalar per class channel per ray. -/
noncomputable def siddonForwardMasked (V : Volume) (M : MaskVol) (rays : List Ray)
    (eps : ℚ) (filt : Bool) : List (List ℝ) :=
  rays.map (fun r =>
    let alphas := getAlphas rays V.dims eps filt r
    (scatterAdd (numChannels M) (rayChannels M r eps alphas)
        (siddonRayTerms V r eps alphas)).map (fun q => ((q : ℚ) : ℝ) * rayLength r eps))

/-- `torch.linspace(near, far, n)`: `n` evenly spaced values including both
endpoints (`[near]` for `n = 1`, `[]` for `n = 0`). -/
def linspace (near far : ℚ) (n : ℕ) : List ℚ :=
  match n with
  | 0 => []
  | 1 => [near]
  | _ => (List.range n).map (fun i : ℕ => near + (i : ℚ) * (far - near) / ((n : ℚ) - 1))

/-- The Trilinear renderer's filtered sample positions: the same `linspace`
row is shared by (broadcast over) every ray of the batch, and the filter keeps
the positions where at least one ray is inside its own bounds. -/
def trilinearAlphas (rays : List Ray) (dims : Dims) (eps near far : ℚ) (nPoints : ℕ)
    (filt : Bool) : List ℚ :=
  let row := linspace near far nPoints
  if filt then
    maskFilter ((List.range row.length).map
      (fun k => rays.any (fun r => decide (inBounds r dims eps (row.getD k 0))))) row
  else row

/-- Per-sample values of one ray in `Trilinear.forward` (samples at the alphas
themselves, not midpoints, with trilinear interpolation). -/
def trilinearRayTerms (V : Volume) (r : Ray) (eps : ℚ) (alphas : List ℚ) : List ℚ :=
  alphas.map (fun α => sampleTrilinear V (xyzAt r V.dims eps α))

/-- `Trilinear.forward` with `mask=None`: sum of the per-sample values scaled
by `raylength / n_points`. -/
noncomputable def trilinearForward (V : Volume) (rays : List Ray) (eps near far : ℚ)
    (nPoints : ℕ) (filt : Bool) : List ℝ :=
  rays.map (fun r =>
    (((trilinearRayTerms V r eps (trilinearAlphas rays V.dims eps near far nPoints filt)).sum
        : ℚ) : ℝ) * (rayLength r eps / (nPoints : ℝ)))

/-- Per-sample channel indices of one ray in `Trilinear.forward` with a mask
(nearest-sampling the class mask at the same positions). -/
def trilinearChannels (M : MaskVol) (r : Ray) (eps : ℚ) (alphas : List ℚ) : List ℕ :=
  alphas.map (fun α => sampleNearestMask M (xyzAt r M.dims eps α))

/-- `Trilinear.forward` with a class mask. -/
noncomputable def trilinearForwardMasked (V : Volume) (M : MaskVol) (rays : List Ray)
    (eps near far : ℚ) (nPoints : ℕ) (filt : Bool) : List (List ℝ) :=
  rays.map (fun r =>
    let alphas := trilinearAlphas rays V.dims eps near far nPoints filt
    (scatterAdd (numChannels M) (trilinearChannels M r eps alphas)
        (trilinearRayTerms V r eps alphas)).map
      (fun q => ((q : ℚ) : ℝ) * (rayLength r eps / (nPoints : ℝ))))

/-- The volume's bounding box in continuous voxel-index coordinates: voxel
`(i, j, k)` is the unit cube centered at `(i, j, k)`, so the volume occupies
`[-1/2, dim - 1/2]` on each axis. -/
def inBoundingBox (dims : Dims) (p : V3) : Prop :=
  -1/2 ≤ p.x ∧ p.x ≤ (dims.nx : ℚ) - 1/2 ∧ -1/2 ≤ p.y ∧ p.y ≤ (dims.ny : ℚ) - 1/2 ∧
    -1/2 ≤ p.z ∧ p.z ≤ (dims.nz : ℚ) - 1/2

instance (dims : Dims) (p : V3) : Decidable (inBoundingBox dims p) := by
  unfold inBoundingBox; infer_instance

/-! ## Concrete test scenario

The specification's concrete scenario: a `4×4×4` all-ones volume, the source
default `eps = 1e-8`, the axis-aligned ray `rayA` from `(-10, 1.5, 1.5)` to
`(10, 1.5, 1.5)` through the volume's center, and a second ray `rayB` from
`(-10, 1.5, 1.5)` to `(-0.6, 1.5, 1.5)` whose segment stops strictly left of
the volume (every point has `x ≤ -0.6 + ε < -0.5`). -/

def epsC : ℚ := 1 / 100000000

def V4 : Volume := ⟨⟨4, 4, 4⟩, List.replicate 64 1⟩

def rayA : Ray := ⟨⟨-10, 3/2, 3/2⟩, ⟨10, 3/2, 3/2⟩⟩

def rayB : Ray := ⟨⟨-10, 3/2, 3/2⟩, ⟨-3/5, 3/2, 3/2⟩⟩

/-- With filtering on and `rayA` alone, only the three crossings with the
planes `x ∈ {0.5, 1.5, 2.5}` survive (the bounds from `_get_alpha_minmax`
are `[10/(20+ε), 13/(20+ε)]`, the crossing parameters of the voxel-center
planes `x = 0` and `x = 3`), leaving two unit segments. -/
theorem sumA_filtered :
    siddonRaySum V4 rayA epsC (getAlphas [rayA] V4.dims epsC true rayA) = 2 / (20 + epsC) := by
  decide

/-- With filtering off, all four unit segments from `x = -0.5` to `x = 3.5`
contribute (the out-of-volume segments sample `0` through zero padding). -/
theorem sumA_unfiltered :
    siddonRaySum V4 rayA epsC (getAlphas [rayA] V4.dims epsC false rayA) = 4 / (20 + epsC) := by
  decide

/-- In the batch `[rayA, rayB]` the retained rank positions are still
`{7, 8, 9}` (only `rayA` has in-bounds crossings), so `rayA`'s value is
unchanged. -/
theorem sumA_batchAB :
    siddonRaySum V4 rayA epsC (getAlphas [rayA, rayB] V4.dims epsC true rayA) = 2 / (20 + epsC) := by
  decide

/-- In the batch `[rayA, rayB]`, `rayB` keeps its own crossings at the
globally retained rank positions `{7, 8, 9}`; these lie beyond its target
(`α > 1`, points `x ∈ [0.5, 2.5]` inside the volume), so `rayB` accumulates
two unit segments even though its segment never meets the volume. -/
theorem sumB_batchAB :
    siddonRaySum V4 rayB epsC (getAlphas [rayA, rayB] V4.dims epsC true rayB) =
      2 / (47/5 + epsC) := by
  decide

/-- Rendered alone, `rayB` has an empty `[α_min, α_max]` interval, every rank
position is dropped, and its accumulated value is `0`. -/
theorem sumB_alone :
    siddonRaySum V4 rayB epsC (getAlphas [rayB] V4.dims epsC true rayB) = 0 := by
  decide

theorem normSqA_eq : normSq rayA epsC = (20 + epsC) ^ 2 + 2 * epsC ^ 2 := by decide

theorem normSqB_pos : 0 < normSq rayB epsC := by decide

theorem rayLengthB_pos : 0 < rayLength rayB epsC := by
  have h : (0 : ℝ) < ((normSq rayB epsC : ℚ) : ℝ) := by exact_mod_cast normSqB_pos
  exact Real.sqrt_pos.mpr h

/-! ## Claims -/

/-- C1 (amended): for the 4×4×4 all-ones volume and the axis-aligned ray
`rayA` with `ε = 1e-8`, the exact (Siddon) integrator's output is
`(2/(20+ε)) · ‖T − S + ε‖ ≈ 2.0`, not 4: `_get_alpha_minmax` computes the
bounds from the planes at voxel centers `0` and `dim − 1`, so only the
crossings with `x ∈ {0.5, 1.5, 2.5}` are retained and the integrated path
runs from `x = 0.5` to `x = 2.5` (2 units).  With filtering disabled the
output is `(4/(20+ε)) · ‖T − S + ε‖ ≈ 4.0`, the full 4-unit extent. -/
theorem siddon_axis_aligned_ray_output :
    siddonForward V4 [rayA] epsC true =
      [((2 / (20 + epsC) : ℚ) : ℝ) * Real.sqrt (((20 + epsC) ^ 2 + 2 * epsC ^ 2 : ℚ) : ℝ)] ∧
    siddonForward V4 [rayA] epsC false =
      [((4 / (20 + epsC) : ℚ) : ℝ) * Real.sqrt (((20 + epsC) ^ 2 + 2 * epsC ^ 2 : ℚ) : ℝ)] := by
  constructor <;>
    simp only [siddonForward, List.map_cons, List.map_nil, rayLength, sumA_filtered,
      sumA_unfiltered, normSqA_eq]

/-- C1 (counterexample): the default (filtered) output of the concrete
scenario is not `4`. -/
theorem siddon_axis_aligned_ray_not_four :
    siddonForward V4 [rayA] epsC true ≠ [(4 : ℝ)] := by
  intro h
  have hhead : ((2 / (20 + epsC) : ℚ) : ℝ) * Real.sqrt ((normSq rayA epsC : ℚ) : ℝ) = 4 := by
    have hc := congrArg (fun l : List ℝ => l.headD 0) h
    simpa [siddonForward, rayLength, sumA_filtered] using hc
  have hnn : (0 : ℝ) ≤ ((normSq rayA epsC : ℚ) : ℝ) := by
    have : (0 : ℚ) ≤ normSq rayA epsC := by decide
    exact_mod_cast this
  have hsq : ((2 / (20 + epsC) : ℚ) : ℝ) ^ 2 * ((normSq rayA epsC : ℚ) : ℝ) = 16 := by
    have hc := congrArg (fun t : ℝ => t ^ 2) hhead
    simp only [mul_pow, Real.sq_sqrt hnn] at hc
    linarith
  have hq : ((2 / (20 + epsC)) ^ 2 * normSq rayA epsC : ℚ) = 16 := by exact_mod_cast hsq
  have hne : ((2 / (20 + epsC)) ^ 2 * normSq rayA epsC : ℚ) ≠ 16 := by decide
  exact hne hq

/-- Slab bound for one axis: if `α` lies between the two crossing parameters
of the planes at offsets `0` and `N - 1`, the coordinate `s + α·d` lies in
`[0, N - 1]` (for any nonzero denominator `d` and `N ≥ 1`). -/
theorem slab_axis {s d N α : ℚ} (hd : d ≠ 0) (hN : (1 : ℚ) ≤ N)
    (h1 : min ((0 - s) / d) ((N - 1 - s) / d) ≤ α)
    (h2 : α ≤ max ((0 - s) / d) ((N - 1 - s) / d)) :
    0 ≤ s + α * d ∧ s + α * d ≤ N - 1 := by
  have e0 : ((0 - s) / d) * d = 0 - s := div_mul_cancel₀ _ hd
  have e1 : ((N - 1 - s) / d) * d = N - 1 - s := div_mul_cancel₀ _ hd
  rcases lt_or_gt_of_ne hd with hneg | hpos
  · have hm1 : α * d ≤ min ((0 - s) / d) ((N - 1 - s) / d) * d :=
      mul_le_mul_of_nonpos_right h1 hneg.le
    have hm2 : max ((0 - s) / d) ((N - 1 - s) / d) * d ≤ α * d :=
      mul_le_mul_of_nonpos_right h2 hneg.le
    rcases min_choice ((0 - s) / d) ((N - 1 - s) / d) with hc | hc <;> rw [hc] at hm1 <;>
      rcases max_choice ((0 - s) / d) ((N - 1 - s) / d) with hx | hx <;> rw [hx] at hm2 <;>
      simp only [e0, e1] at hm1 hm2 <;>
      exact ⟨by linarith, by linarith⟩
  · have hm1 : min ((0 - s) / d) ((N - 1 - s) / d) * d ≤ α * d :=
      mul_le_mul_of_nonneg_right h1 hpos.le
    have hm2 : α * d ≤ max ((0 - s) / d) ((N - 1 - s) / d) * d :=
      mul_le_mul_of_nonneg_right h2 hpos.le
    rcases min_choice ((0 - s) / d) ((N - 1 - s) / d) with hc | hc <;> rw [hc] at hm1 <;>
      rcases max_choice ((0 - s) / d) ((N - 1 - s) / d) with hx | hx <;> rw [hx] at hm2 <;>
      simp only [e0, e1] at hm1 hm2 <;>
      exact ⟨by linarith, by linarith⟩

/-- If no `α ∈ [0, 1]` lies in the raw interval `[aminr, amaxr]`, then the
clipped interval of `_get_alpha_minmax` (floor `aminr` at `0`, cap `amaxr`
at `1`) is empty. -/
theorem clipped_interval_empty {aminr amaxr : ℚ}
    (h : ∀ α : ℚ, 0 ≤ α → α ≤ 1 → ¬(aminr ≤ α ∧ α ≤ amaxr)) :
    (if amaxr > 1 then 1 else amaxr) < (if aminr < 0 then 0 else aminr) := by
  by_contra hle
  push_neg at hle
  have h0 : 0 ≤ (if aminr < 0 then (0 : ℚ) else aminr) := by
    split_ifs with h'
    · exact le_refl 0
    · exact not_lt.mp h'
  have h1' : (if amaxr > 1 then (1 : ℚ) else amaxr) ≤ 1 := by
    split_ifs with h'
    · exact le_refl 1
    · exact le_of_not_lt h'
  have hr1 : aminr ≤ (if aminr < 0 then (0 : ℚ) else aminr) := by
    split_ifs with h'
    · exact h'.le
    · exact le_refl _
  have hr2 : (if amaxr > 1 then (1 : ℚ) else amaxr) ≤ amaxr := by
    split_ifs with h'
    · exact h'.le
    · exact le_refl _
  exact h _ h0 (le_trans hle h1') ⟨hr1, le_trans hle hr2⟩

/-- A boolean mask that is everywhere `false` filters every row to `[]`. -/
theorem maskFilter_nil_of_all_false :
    ∀ (row : List ℚ) (mask : List Bool), (∀ b ∈ mask, b = false) →
      maskFilter mask row = [] := by
  intro row
  induction row with
  | nil => intro mask _; simp [maskFilter]
  | cons a row ih =>
    intro mask h
    cases mask with
    | nil => simp [maskFilter]
    | cons b mask =>
      have hb : b = false := h b (List.mem_cons_self _ _)
      subst hb
      simpa [maskFilter, List.filter] using ih mask (fun c hc => h c (List.mem_cons_of_mem _ hc))

/-- If the (perturbed) segment `α ∈ [0, 1]` of a ray never meets the volume's
bounding box, its clipped `[α_min, α_max]` interval is empty. -/
theorem alphaMinMax_empty_of_outside (r : Ray) (dims : Dims) (eps : ℚ)
    (hdx : r.T.x - r.S.x + eps ≠ 0) (hdy : r.T.y - r.S.y + eps ≠ 0)
    (hdz : r.T.z - r.S.z + eps ≠ 0)
    (hnx : 1 ≤ dims.nx) (hny : 1 ≤ dims.ny) (hnz : 1 ≤ dims.nz)
    (hout : ∀ α : ℚ, 0 ≤ α → α ≤ 1 → ¬ inBoundingBox dims (pointAt r eps α)) :
    (getAlphaMinMax r dims eps).2 < (getAlphaMinMax r dims eps).1 := by
  have hcx : (1 : ℚ) ≤ (dims.nx : ℚ) := by exact_mod_cast hnx
  have hcy : (1 : ℚ) ≤ (dims.ny : ℚ) := by exact_mod_cast hny
  have hcz : (1 : ℚ) ≤ (dims.nz : ℚ) := by exact_mod_cast hnz
  have key := @clipped_interval_empty
    (max (max (min ((0 - r.S.x) / (r.T.x - r.S.x + eps))
        (((dims.nx : ℚ) - 1 - r.S.x) / (r.T.x - r.S.x + eps)))
      (min ((0 - r.S.y) / (r.T.y - r.S.y + eps))
        (((dims.ny : ℚ) - 1 - r.S.y) / (r.T.y - r.S.y + eps))))
      (min ((0 - r.S.z) / (r.T.z - r.S.z + eps))
        (((dims.nz : ℚ) - 1 - r.S.z) / (r.T.z - r.S.z + eps))))
    (min (min (max ((0 - r.S.x) / (r.T.x - r.S.x + eps))
        (((dims.nx : ℚ) - 1 - r.S.x) / (r.T.x - r.S.x + eps)))
      (max ((0 - r.S.y) / (r.T.y - r.S.y + eps))
        (((dims.ny : ℚ) - 1 - r.S.y) / (r.T.y - r.S.y + eps))))
      (max ((0 - r.S.z) / (r.T.z - r.S.z + eps))
        (((dims.nz : ℚ) - 1 - r.S.z) / (r.T.z - r.S.z + eps))))
    (by
      intro α h0 h1 hand
      obtain ⟨hminle, hlemax⟩ := hand
      have hxlo := le_trans (le_max_of_le_left (le_max_left _ _)) hminle
      have hylo := le_trans (le_max_of_le_left (le_max_right _ _)) hminle
      have hzlo := le_trans (le_max_right _ _) hminle
      have hxhi := le_trans hlemax (min_le_of_left_le (min_le_left _ _))
      have hyhi := le_trans hlemax (min_le_of_left_le (min_le_right _ _))
      have hzhi := le_trans hlemax (min_le_right _ _)
      have hx := slab_axis hdx hcx hxlo hxhi
      have hy := slab_axis hdy hcy hylo hyhi
      have hz := slab_axis hdz hcz hzlo hzhi
      exact hout α h0 h1
        ⟨by simp only [pointAt]; linarith [hx.1], by simp only [pointAt]; linarith [hx.2],
         by simp only [pointAt]; linarith [hy.1], by simp only [pointAt]; linarith [hy.2],
         by simp only [pointAt]; linarith [hz.1], by simp only [pointAt]; linarith [hz.2]⟩)
  exact key

/-- C5 (amended): the exact integrator returns `0` for a ray whose
(ε-perturbed) segment lies entirely outside the volume's bounding box when
the ray is rendered as its own batch; in a larger batch, cross-ray rank
coupling in the filter can make its output nonzero (see the counterexample). -/
theorem siddon_outside_ray_single_zero (V : Volume) (r : Ray) (eps : ℚ)
    (hdx : r.T.x - r.S.x + eps ≠ 0) (hdy : r.T.y - r.S.y + eps ≠ 0)
    (hdz : r.T.z - r.S.z + eps ≠ 0)
    (hnx : 1 ≤ V.dims.nx) (hny : 1 ≤ V.dims.ny) (hnz : 1 ≤ V.dims.nz)
    (hout : ∀ α : ℚ, 0 ≤ α → α ≤ 1 → ¬ inBoundingBox V.dims (pointAt r eps α)) :
    siddonForward V [r] eps true = [0] := by
  have hempty := alphaMinMax_empty_of_outside r V.dims eps hdx hdy hdz hnx hny hnz hout
  have hmask : ∀ b ∈ goodMask [r] V.dims eps, b = false := by
    intro b hb
    simp only [goodMask, List.mem_map] at hb
    obtain ⟨k, _, rfl⟩ := hb
    simp only [List.any_cons, List.any_nil, Bool.or_false]
    apply decide_eq_false
    intro hin
    obtain ⟨ha, hb'⟩ := hin
    linarith
  have halphas : getAlphas [r] V.dims eps true r = [] := by
    simp only [getAlphas, if_pos]
    exact maskFilter_nil_of_all_false _ _ hmask
  simp [siddonForward, halphas, siddonRaySum, siddonRayTerms, midpoints, diffs]

/-- Witness for C5: a concrete ray whose segment stays at `x ≤ -5 + ε`,
entirely left of the `4×4×4` volume, renders to `[0]`. -/
theorem siddon_outside_ray_single_zero_witness :
    siddonForward V4 [⟨⟨-10, 3/2, 3/2⟩, ⟨-5, 3/2, 3/2⟩⟩] epsC true = [0] := by
  apply siddon_outside_ray_single_zero
  · decide
  · decide
  · decide
  · decide
  · decide
  · decide
  · intro α h0 h1 hin
    have hx := hin.1
    simp only [pointAt] at hx
    have heq : epsC = 1 / 100000000 := rfl
    have hmul : α * (-5 - -10 + epsC) ≤ 1 * (-5 - -10 + epsC) :=
      mul_le_mul_of_nonneg_right h1 (by rw [heq]; norm_num)
    rw [heq] at hx hmul
    norm_num at hx hmul
    linarith

/-- C5 (counterexample): in the batch `[rayA, rayB]`, ray `rayB`'s segment
lies entirely outside the bounding box of the `4×4×4` volume, yet the exact
integrator's output for it is positive, because the filter retains the rank
positions at which `rayA` is in bounds and `rayB`'s crossings at those ranks
lie beyond its target, inside the volume. -/
theorem siddon_outside_ray_batch_nonzero :
    (∀ α : ℚ, 0 ≤ α → α ≤ 1 → ¬ inBoundingBox V4.dims (pointAt rayB epsC α)) ∧
    (siddonForward V4 [rayA, rayB] epsC true).getD 1 0 ≠ 0 := by
  constructor
  · intro α h0 h1 hin
    have hx := hin.1
    simp only [pointAt, rayB] at hx
    have heq : epsC = 1 / 100000000 := rfl
    have hmul : α * (-3/5 - -10 + epsC) ≤ 1 * (-3/5 - -10 + epsC) :=
      mul_le_mul_of_nonneg_right h1 (by rw [heq]; norm_num)
    rw [heq] at hx hmul
    norm_num at hx hmul
    linarith
  · have hval : (siddonForward V4 [rayA, rayB] epsC true).getD 1 0 =
        ((2 / (47/5 + epsC) : ℚ) : ℝ) * rayLength rayB epsC := by
      simp only [siddonForward, List.map_cons, List.map_nil, List.getD_cons_succ,
        List.getD_cons_zero, sumB_batchAB]
    rw [hval]
    have hq : (0 : ℝ) < ((2 / (47/5 + epsC) : ℚ) : ℝ) := by
      have : (0 : ℚ) < 2 / (47/5 + epsC) := by decide
      exact_mod_cast this
    exact ne_of_gt (mul_pos hq rayLengthB_pos)

/-- C6 (amended): with intersection filtering disabled, rendering is an
independent per-ray map, so splitting a ray batch into tiles and
concatenating the tile outputs equals rendering the whole batch at once.
With the default filtering enabled the retained rank set couples the rays of
a batch and tiling changes results (see the counterexample); `DRR.forward`'s
patch mode additionally drops trailing pixels when the pixel count is not
divisible by the number of patches. -/
theorem siddon_tiling_lossless_without_filter (V : Volume) (rays₁ rays₂ : List Ray) (eps : ℚ) :
    siddonForward V (rays₁ ++ rays₂) eps false =
      siddonForward V rays₁ eps false ++ siddonForward V rays₂ eps false := by
  simp [siddonForward, getAlphas]

/-- C6 (counterexample): splitting the batch `[rayA, rayB]` into the tiles
`[rayA]` and `[rayB]` and concatenating does not reproduce the full-batch
render: alone, `rayB` renders to `0`; in the batch it renders to a positive
value. -/
theorem siddon_tiling_filter_counterexample :
    siddonForward V4 ([rayA] ++ [rayB]) epsC true ≠
      siddonForward V4 [rayA] epsC true ++ siddonForward V4 [rayB] epsC true := by
  intro h
  have h1 := congrArg (fun l : List ℝ => l.getD 1 0) h
  simp only [List.cons_append, List.nil_append, siddonForward, List.map_cons, List.map_nil,
    List.getD_cons_succ, List.getD_cons_zero, sumB_batchAB, sumB_alone] at h1
  have hq : (0 : ℝ) < ((2 / (47/5 + epsC) : ℚ) : ℝ) := by
    have : (0 : ℚ) < 2 / (47/5 + epsC) := by decide
    exact_mod_cast this
  have hpos := mul_pos hq rayLengthB_pos
  rw [h1] at hpos
  simp at hpos

/-- Boolean-mask indexing keeps as many entries as the mask has `true`s,
whenever the row and the mask have the same length. -/
theorem maskFilter_length_eq :
    ∀ (row : List ℚ) (mask : List Bool), row.length = mask.length →
      (maskFilter mask row).length = (mask.filter id).length := by
  intro row
  induction row with
  | nil =>
    intro mask h
    cases mask with
    | nil => simp [maskFilter]
    | cons b mask => simp at h
  | cons a row ih =>
    intro mask h
    cases mask with
    | nil => simp at h
    | cons b mask =>
      have h' : row.length = mask.length := by simpa using h
      cases b
      · simpa [maskFilter, List.filter_cons] using ih mask h'
      · simpa [maskFilter, List.filter_cons] using ih mask h'

/-- C2: the Intersection Engine's filter retains exactly the rank positions
at which at least one ray of the batch has a crossing inside its own
`[α_min, α_max]` bounds (the union over rays of their in-bounds rank
positions), and consequently every ray of the batch keeps the same number of
crossings — the number of retained rank positions. -/
theorem filter_retains_batch_union_rank_positions (rays : List Ray) (dims : Dims) (eps : ℚ) :
    (∀ k, k < numCrossings dims →
      ((goodMask rays dims eps).getD k false = true ↔
        ∃ r ∈ rays, inBounds r dims eps ((getAlphasRaw r dims eps).getD k 0))) ∧
    (∀ r ∈ rays, (getAlphas rays dims eps true r).length =
      ((goodMask rays dims eps).filter id).length) := by
  constructor
  · intro k hk
    have hk' : k < (goodMask rays dims eps).length := by
      simp [goodMask, hk]
    rw [List.getD_eq_getElem?_getD, List.getElem?_eq_getElem hk']
    simp [goodMask, List.any_eq_true, decide_eq_true_eq]
  · intro r hr
    have hrow : (getAlphasRaw r dims eps).length = (goodMask rays dims eps).length := by
      simp [goodMask, length_getAlphasRaw]
    simp only [getAlphas, if_true]
    exact maskFilter_length_eq _ _ hrow

/-- Witness for C2 at the concrete scenario: rank position `7` of the
single-ray batch `[rayA]` is retained exactly when `rayA` is in bounds there,
and `rayA` keeps as many crossings as the mask has `true`s. -/
theorem filter_retains_batch_union_rank_positions_witness :
    (((goodMask [rayA] ⟨4, 4, 4⟩ epsC).getD 7 false = true) ↔
      ∃ r ∈ [rayA], inBounds r ⟨4, 4, 4⟩ epsC ((getAlphasRaw r ⟨4, 4, 4⟩ epsC).getD 7 0)) ∧
    (getAlphas [rayA] ⟨4, 4, 4⟩ epsC true rayA).length =
      ((goodMask [rayA] ⟨4, 4, 4⟩ epsC).filter id).length :=
  ⟨(filter_retains_batch_union_rank_positions [rayA] ⟨4, 4, 4⟩ epsC).1 7 (by decide),
   (filter_retains_batch_union_rank_positions [rayA] ⟨4, 4, 4⟩ epsC).2 rayA
     (List.mem_cons_self _ _)⟩

/-- C4 (counterexample): for `dim = 4`, the normalization `2·p/dim − 1` maps
the center of the first voxel (index `0`) exactly to `-1`, but the center of
the last voxel (index `dim − 1 = 3`) to `1/2`, not to `+1`. -/
theorem normCoord_last_voxel_center_not_one :
    normCoord 0 4 = -1 ∧ normCoord ((4 : ℚ) - 1) 4 = 1/2 ∧ normCoord ((4 : ℚ) - 1) 4 ≠ 1 := by
  decide

/-- C4 (amended): the normalization `2·p/dim − 1` maps index `0` exactly to
`-1`, but `+1` corresponds to index `dim` (one past the last voxel center);
the center of the last voxel maps to `(dim − 2)/dim`.  Composed with
`grid_sample`'s `align_corners=True` unnormalization, index `p` is resampled
at `p·(dim − 1)/dim`, an effective scale factor of `(dim − 1)/dim`. -/
theorem normCoord_boundary_convention (n : ℕ) (hn : 1 ≤ n) :
    normCoord 0 n = -1 ∧ normCoord (n : ℚ) n = 1 ∧
    normCoord ((n : ℚ) - 1) n = ((n : ℚ) - 2) / n ∧
    ∀ p : ℚ, unnormalize (normCoord p n) n = p * ((n : ℚ) - 1) / n := by
  have h0 : (n : ℚ) ≠ 0 := Nat.cast_ne_zero.mpr (by omega)
  refine ⟨?_, ?_, ?_, ?_⟩
  · simp [normCoord]
  · unfold normCoord; rw [mul_div_assoc, div_self h0]; norm_num
  · unfold normCoord; field_simp; ring
  · intro p; unfold normCoord unnormalize; field_simp; ring

/-- Witness for C4 (amended) at `dim = 4`. -/
theorem normCoord_boundary_convention_witness :
    normCoord 0 4 = -1 ∧ normCoord ((4 : ℕ) : ℚ) 4 = 1 ∧
    normCoord (((4 : ℕ) : ℚ) - 1) 4 = (((4 : ℕ) : ℚ) - 2) / 4 ∧
    ∀ p : ℚ, unnormalize (normCoord p 4) 4 = p * (((4 : ℕ) : ℚ) - 1) / 4 :=
  normCoord_boundary_convention 4 (by omega)

/-- A `2×2×2` volume whose every voxel holds `7`, for the sampler claims. -/
def V2 : Volume := ⟨⟨2, 2, 2⟩, List.replicate 8 7⟩

/-- C8 (counterexample): at the out-of-range coordinate `(-3, 0, 0)` the
sampler returns `0` — the `grid_sample` call uses the default
`padding_mode="zeros"` — even though every in-range field value is `7`, so
the coordinate is not clamped to the nearest in-range voxel. -/
theorem sampleNearest_out_of_range_not_clamped :
    sampleNearest V2 ⟨-3, 0, 0⟩ = 0 ∧ (∀ q ∈ V2.data, q = 7) ∧ (0 : ℚ) ≠ 7 := by
  decide

/-- C8 (amended): out-of-range coordinates are zero-padded, not clamped and
never wrapped: as soon as the coordinate is more than one rounding margin
below `-1` on an axis, the rounded resampling index leaves the grid and the
sample is `0`. -/
theorem sampleNearest_zero_padding (V : Volume) (g : V3) (hn : 2 ≤ V.dims.nx)
    (hx : g.x < -1 - 1 / ((V.dims.nx : ℚ) - 1)) :
    sampleNearest V g = 0 := by
  have hc2 : (2 : ℚ) ≤ (V.dims.nx : ℚ) := by exact_mod_cast hn
  have hpos : (0 : ℚ) < (V.dims.nx : ℚ) - 1 := by linarith
  have h1 : g.x + 1 < -(1 / ((V.dims.nx : ℚ) - 1)) := by linarith
  have h2 : (g.x + 1) * ((V.dims.nx : ℚ) - 1) <
      -(1 / ((V.dims.nx : ℚ) - 1)) * ((V.dims.nx : ℚ) - 1) :=
    mul_lt_mul_of_pos_right h1 hpos
  have h3 : -(1 / ((V.dims.nx : ℚ) - 1)) * ((V.dims.nx : ℚ) - 1) = -1 := by
    field_simp
  have hu : unnormalize g.x V.dims.nx < -1/2 := by
    unfold unnormalize
    have hre : (g.x + 1) / 2 * ((V.dims.nx : ℚ) - 1) = (g.x + 1) * ((V.dims.nx : ℚ) - 1) / 2 := by
      ring
    rw [hre]
    rw [h3] at h2
    linarith
  have hround : round (unnormalize g.x V.dims.nx) < 0 := by
    rw [round_eq]
    have hlt : unnormalize g.x V.dims.nx + 1/2 < ((0 : ℤ) : ℚ) := by push_cast; linarith
    exact Int.floor_lt.mpr hlt
  unfold sampleNearest valAt
  rw [if_neg]
  intro hcond
  exact absurd hcond.1 (not_le.mpr hround)

/-- Witness for C8 (amended) at the concrete out-of-range coordinate. -/
theorem sampleNearest_zero_padding_witness :
    (2 ≤ V2.dims.nx) ∧ ((⟨-3, 0, 0⟩ : V3).x < -1 - 1 / ((V2.dims.nx : ℚ) - 1)) ∧
      sampleNearest V2 ⟨-3, 0, 0⟩ = 0 :=
  ⟨by decide, by decide, sampleNearest_zero_padding V2 ⟨-3, 0, 0⟩ (by decide) (by decide)⟩

/-- Reading the reweighted volume at a valid index applies the per-voxel
reweighting to the raw value at that index. -/
theorem reweight_getD (vol : List ℚ) (m s : ℚ) (i : ℕ) (h : i < vol.length) :
    (reweight vol m s).getD i 0 = rwv s m (vol.getD i 0) := by
  unfold reweight
  rw [List.getD_eq_getElem?_getD, List.getElem?_eq_getElem (by simpa using h),
    List.getElem_map, List.getD_eq_getElem?_getD, List.getElem?_eq_getElem h]
  simp

/-- C3 (amended): for a raw volume with at least one soft-tissue voxel and a
multiplier `m > 0`, provided the reweighted volume is non-constant, the
Density Transform returns the reweighted volume (soft tissue kept, bone
scaled by `m`, air floored to the minimum soft-tissue value) shifted by its
minimum and divided by `max D − min D`, and every resulting voxel value is a
finite rational in `[0, 1]`.  (The non-constancy hypothesis is forced: on a
constant volume the division is `0 / 0` and every voxel becomes `NaN`; see
the counterexample.) -/
theorem density_transform_unit_interval (vol : List ℚ) (m s : ℚ)
    (hsm : softMin vol = some s) (hm : 0 < m)
    (hnd : ∃ a ∈ reweight vol m s, ∃ b ∈ reweight vol m s, a ≠ b) :
    ∃ mn mx,
      listMin (reweight vol m s) = some mn ∧
      listMax ((reweight vol m s).map (fun x => x - mn)) = some mx ∧
      0 < mx ∧
      listMax (reweight vol m s) = some (mn + mx) ∧
      setBoneAttenuationMultiplier vol m =
        some (((reweight vol m s).map (fun x => x - mn)).map (fun x => some (x / mx))) ∧
      ∀ o ∈ ((reweight vol m s).map (fun x => x - mn)).map (fun x => some (x / mx)),
        ∃ q, o = some q ∧ 0 ≤ q ∧ q ≤ 1 := by
  obtain ⟨a, ha, b, hb, hab⟩ := hnd
  have hdne : reweight vol m s ≠ [] := by
    intro h
    rw [h] at ha
    exact absurd ha (List.not_mem_nil a)
  obtain ⟨mn, hmn⟩ := listMin_isSome hdne
  have hd2ne : (reweight vol m s).map (fun x => x - mn) ≠ [] := by
    simpa using hdne
  obtain ⟨mx, hmx⟩ := listMax_isSome hd2ne
  have hmaxrel : listMax (reweight vol m s) = some (mn + mx) := by
    have hsub := listMax_map_sub mn (reweight vol m s)
    rw [hmx] at hsub
    cases hM : listMax (reweight vol m s) with
    | none => rw [hM] at hsub; simp at hsub
    | some M =>
      rw [hM] at hsub
      simp only [Option.map_some', Option.some.injEq] at hsub
      congr 1
      linarith
  have hmn_le : ∀ x ∈ reweight vol m s, mn ≤ x := listMin_le hmn
  have hmx_ge : ∀ x ∈ (reweight vol m s).map (fun y => y - mn), x ≤ mx := listMax_ge hmx
  have hmx_pos : 0 < mx := by
    by_contra hle
    push_neg at hle
    have ha' : a - mn ≤ mx := hmx_ge _ (List.mem_map_of_mem _ ha)
    have hb' : b - mn ≤ mx := hmx_ge _ (List.mem_map_of_mem _ hb)
    have ha0 : mn ≤ a := hmn_le a ha
    have hb0 : mn ≤ b := hmn_le b hb
    exact hab (by linarith)
  refine ⟨mn, mx, hmn, hmx, hmx_pos, hmaxrel, ?_, ?_⟩
  · unfold setBoneAttenuationMultiplier
    rw [hsm]
    simp only [hmn, Option.getD_some, hmx, Option.some.injEq]
    have hne0 : mx ≠ 0 := ne_of_gt hmx_pos
    simp [hne0]
  · intro o ho
    simp only [List.mem_map] at ho
    obtain ⟨x, hx, rfl⟩ := ho
    obtain ⟨y, hy, rfl⟩ := hx
    refine ⟨(y - mn) / mx, rfl, ?_, ?_⟩
    · exact div_nonneg (by linarith [hmn_le y hy]) hmx_pos.le
    · rw [div_le_one hmx_pos]
      exact hmx_ge _ (List.mem_map_of_mem _ hy)

/-- C3 (counterexample): the one-voxel soft-tissue volume `[100]` with
multiplier `2` satisfies the claim's hypotheses, but after the reweighting the
volume is constant, the min-max normalization divides `0` by `0`, and the only
output voxel is `NaN` (modelled `none`), not a value in `[0, 1]`. -/
theorem density_unit_interval_counterexample :
    (∃ v ∈ ([100] : List ℚ), isSoftB v = true) ∧ (0 : ℚ) < 2 ∧
    setBoneAttenuationMultiplier [100] 2 = some [none] ∧
    ¬ ∀ o ∈ [(none : Option ℚ)], ∃ q, o = some q ∧ 0 ≤ q ∧ q ≤ 1 := by
  refine ⟨by decide, by decide, by decide, ?_⟩
  intro h
  obtain ⟨q, hq, -⟩ := h none (List.mem_cons_self _ _)
  exact Option.noConfusion hq

/-- Witness for C3 (amended): the two-voxel volume `[100, 500]` (one
soft-tissue voxel, one bone voxel) with multiplier `2`. -/
theorem density_transform_unit_interval_witness :
    (softMin [100, 500] = some (100 : ℚ)) ∧ (0 : ℚ) < 2 ∧
    (∃ a ∈ reweight [100, 500] 2 100, ∃ b ∈ reweight [100, 500] 2 100, a ≠ b) ∧
    ∃ mn mx,
      listMin (reweight [100, 500] 2 100) = some mn ∧
      listMax ((reweight [100, 500] 2 100).map (fun x => x - mn)) = some mx ∧
      0 < mx ∧
      listMax (reweight [100, 500] 2 100) = some (mn + mx) ∧
      setBoneAttenuationMultiplier [100, 500] 2 =
        some (((reweight [100, 500] 2 100).map (fun x => x - mn)).map
          (fun x => some (x / mx))) ∧
      ∀ o ∈ ((reweight [100, 500] 2 100).map (fun x => x - mn)).map
          (fun x => some (x / mx)),
        ∃ q, o = some q ∧ 0 ≤ q ∧ q ≤ 1 :=
  ⟨by decide, by decide, by decide,
   density_transform_unit_interval [100, 500] 2 100 (by decide) (by decide) (by decide)⟩

/-- C7: the Density Transform is a pure function of the raw volume and the
multiplier (the raw volume is retained unchanged, so recomputation with the
same inputs is bit-identical), and changing only the multiplier leaves the
pre-normalization values of soft-tissue voxels and the air floor unchanged
while rescaling exactly the bone voxels from `v·m` to `v·m'`. -/
theorem setBone_pure_and_multiplier_effect (vol : List ℚ) (m m' : ℚ)
    (hsne : vol.filter isSoftB ≠ []) :
    setBoneAttenuationMultiplier vol m = setBoneAttenuationMultiplier vol m ∧
    ∃ s, softMin vol = some s ∧
      ∀ i, i < vol.length →
        (isSoftB (vol.getD i 0) = true →
          (reweight vol m s).getD i 0 = vol.getD i 0 ∧
          (reweight vol m' s).getD i 0 = vol.getD i 0) ∧
        (isAirB (vol.getD i 0) = true →
          (reweight vol m s).getD i 0 = s ∧ (reweight vol m' s).getD i 0 = s) ∧
        (isBoneB (vol.getD i 0) = true →
          (reweight vol m s).getD i 0 = vol.getD i 0 * m ∧
          (reweight vol m' s).getD i 0 = vol.getD i 0 * m') := by
  obtain ⟨s, hs⟩ := listMin_isSome hsne
  refine ⟨rfl, s, hs, ?_⟩
  intro i hi
  have e1 := reweight_getD vol m s i hi
  have e2 := reweight_getD vol m' s i hi
  refine ⟨?_, ?_, ?_⟩
  · intro hsoft
    have hair : isAirB (vol.getD i 0) = false := by
      simp only [isSoftB, Bool.and_eq_true, decide_eq_true_eq] at hsoft
      simp only [isAirB, decide_eq_false_iff_not]
      linarith [hsoft.1]
    rw [e1, e2]
    unfold rwv
    rw [hair, hsoft]
    simp
  · intro hairt
    rw [e1, e2]
    unfold rwv
    rw [hairt]
    simp
  · intro hbone
    simp only [isBoneB, decide_eq_true_eq] at hbone
    have hair : isAirB (vol.getD i 0) = false := by
      simp only [isAirB, decide_eq_false_iff_not]
      linarith
    have hsoft : isSoftB (vol.getD i 0) = false := by
      unfold isSoftB
      rw [decide_eq_false (not_le.mpr hbone)]
      simp
    rw [e1, e2]
    unfold rwv
    rw [hair, hsoft]
    simp

/-- Witness for C7: a three-voxel volume with one air, one soft-tissue and
one bone voxel, multipliers `1` and `2`. -/
theorem setBone_pure_and_multiplier_effect_witness :
    (([(-1000 : ℚ), 100, 500].filter isSoftB ≠ []) ∧
      ∃ s, softMin [(-1000 : ℚ), 100, 500] = some s ∧
        ∀ i, i < ([(-1000 : ℚ), 100, 500] : List ℚ).length →
          (isSoftB (([(-1000 : ℚ), 100, 500] : List ℚ).getD i 0) = true →
            (reweight [(-1000 : ℚ), 100, 500] 1 s).getD i 0 =
              ([(-1000 : ℚ), 100, 500] : List ℚ).getD i 0 ∧
            (reweight [(-1000 : ℚ), 100, 500] 2 s).getD i 0 =
              ([(-1000 : ℚ), 100, 500] : List ℚ).getD i 0) ∧
          (isAirB (([(-1000 : ℚ), 100, 500] : List ℚ).getD i 0) = true →
            (reweight [(-1000 : ℚ), 100, 500] 1 s).getD i 0 = s ∧
            (reweight [(-1000 : ℚ), 100, 500] 2 s).getD i 0 = s) ∧
          (isBoneB (([(-1000 : ℚ), 100, 500] : List ℚ).getD i 0) = true →
            (reweight [(-1000 : ℚ), 100, 500] 1 s).getD i 0 =
              ([(-1000 : ℚ), 100, 500] : List ℚ).getD i 0 * 1 ∧
            (reweight [(-1000 : ℚ), 100, 500] 2 s).getD i 0 =
              ([(-1000 : ℚ), 100, 500] : List ℚ).getD i 0 * 2)) :=
  ⟨by decide, (setBone_pure_and_multiplier_effect [(-1000 : ℚ), 100, 500] 1 2 (by decide)).2⟩

theorem filter_replicate_of_true (n : ℕ) (v : ℚ) (h : isSoftB v = true) :
    (List.replicate n v).filter isSoftB = List.replicate n v := by
  induction n with
  | zero => rfl
  | succ k ih => simp [List.replicate_succ, List.filter_cons, h, ih]

theorem listMin_replicate {α : Type} [LinearOrder α] (a : α) :
    ∀ n : ℕ, 0 < n → listMin (List.replicate n a) = some a := by
  intro n hn
  induction n with
  | zero => omega
  | succ k ih =>
    rcases Nat.eq_zero_or_pos k with hk | hk
    · subst hk; simp [listMin]
    · rw [List.replicate_succ]
      show some (match listMin (List.replicate k a) with
                 | none => a
                 | some b => min a b) = some a
      rw [ih hk]
      simp

theorem listMax_replicate {α : Type} [LinearOrder α] (a : α) :
    ∀ n : ℕ, 0 < n → listMax (List.replicate n a) = some a := by
  intro n hn
  induction n with
  | zero => omega
  | succ k ih =>
    rcases Nat.eq_zero_or_pos k with hk | hk
    · subst hk; simp [listMax]
    · rw [List.replicate_succ]
      show some (match listMax (List.replicate k a) with
                 | none => a
                 | some b => max a b) = some a
      rw [ih hk]
      simp

/-- C9 (amended): on a constant volume (every voxel the same soft-tissue
value), the Density Transform's normalization divisor `max D − min D` is `0`
and the unguarded division is executed anyway: the function returns normally
with every voxel `NaN` (modelled `none`) — the degenerate input is NOT
surfaced as an error, and the NaNs propagate silently. -/
theorem setBone_constant_volume_silent_nan (v m : ℚ) (n : ℕ) (hn : 0 < n)
    (hv : isSoftB v = true) :
    setBoneAttenuationMultiplier (List.replicate n v) m = some (List.replicate n none) ∧
    (listMax ((reweight (List.replicate n v) m v).map
      (fun x => x - (listMin (reweight (List.replicate n v) m v)).getD 0))).getD 0 = 0 := by
  have hfilt : (List.replicate n v).filter isSoftB = List.replicate n v :=
    filter_replicate_of_true n v hv
  have hsm : softMin (List.replicate n v) = some v := by
    unfold softMin
    rw [hfilt]
    exact listMin_replicate v n hn
  have hrwv : rwv v m v = v := by
    have h1 : isAirB v = false := by
      simp only [isSoftB, Bool.and_eq_true, decide_eq_true_eq] at hv
      simp only [isAirB, decide_eq_false_iff_not]
      linarith [hv.1]
    unfold rwv
    rw [h1, hv]
    simp
  have hrw : reweight (List.replicate n v) m v = List.replicate n v := by
    unfold reweight
    rw [List.map_replicate, hrwv]
  have hmn : (listMin (reweight (List.replicate n v) m v)).getD 0 = v := by
    rw [hrw, listMin_replicate v n hn, Option.getD_some]
  have hd2 : (reweight (List.replicate n v) m v).map
      (fun x => x - (listMin (reweight (List.replicate n v) m v)).getD 0) =
        List.replicate n 0 := by
    rw [hmn, hrw, List.map_replicate]
    norm_num
  have hmx : (listMax ((reweight (List.replicate n v) m v).map
      (fun x => x - (listMin (reweight (List.replicate n v) m v)).getD 0))).getD 0 = 0 := by
    rw [hd2, listMax_replicate 0 n hn, Option.getD_some]
  refine ⟨?_, hmx⟩
  simp only [setBoneAttenuationMultiplier, hsm]
  rw [hmx, hd2]
  simp

/-- C9 (counterexample): on the constant volume `[100, 100]` the divisor is
`0`, yet the Density Transform does not raise: it returns a value, whose
voxels are all `NaN` (`none`) — a silent division by zero, contradicting the
claim that the degenerate input is surfaced as an error with no silent NaNs. -/
theorem setBone_error_not_surfaced_counterexample :
    (listMax ((reweight [100, 100] 1 100).map
      (fun x => x - (listMin (reweight [100, 100] 1 100)).getD 0))).getD 0 = 0 ∧
    setBoneAttenuationMultiplier [100, 100] 1 ≠ none ∧
    setBoneAttenuationMultiplier [100, 100] 1 = some [none, none] := by
  decide

/-- Witness for C9 (amended) on the two-voxel constant volume. -/
theorem setBone_constant_volume_silent_nan_witness :
    (0 < 2) ∧ isSoftB 100 = true ∧
    setBoneAttenuationMultiplier (List.replicate 2 (100 : ℚ)) 1 =
      some (List.replicate 2 none) :=
  ⟨by decide, by decide, (setBone_constant_volume_silent_nan 100 1 2 (by decide) (by decide)).1⟩

/-! ## Per-class accumulation conserves the per-ray total (C10) -/

theorem sum_map_add (l : List ℕ) (f g : ℕ → ℚ) :
    (l.map (fun c => f c + g c)).sum = (l.map f).sum + (l.map g).sum := by
  induction l with
  | nil => simp
  | cons a l ih => simp [ih]; ring

theorem sum_range_indicator (a : ℕ) (w : ℚ) :
    ∀ C : ℕ, ((List.range C).map (fun c => if a = c then w else 0)).sum =
      if a < C then w else 0 := by
  intro C
  induction C with
  | zero => simp
  | succ n ih =>
    rw [List.range_succ, List.map_append, List.sum_append, ih]
    simp only [List.map_cons, List.map_nil, List.sum_cons, List.sum_nil, add_zero]
    rcases lt_trichotomy a n with h | h | h
    · rw [if_pos h, if_neg (by omega), if_pos (by omega)]
      ring
    · subst h
      rw [if_neg (by omega), if_pos rfl, if_pos (by omega)]
      ring
    · rw [if_neg (by omega), if_neg (by omega), if_neg (by omega)]
      ring

/-- `scatter_add_` over the channel dimension conserves the total: summing
the per-channel buckets over all `C` channels recovers the sum of the
scattered values, provided every index is in `[0, C)`. -/
theorem scatterAdd_pairs_sum (C : ℕ) :
    ∀ pairs : List (ℕ × ℚ), (∀ p ∈ pairs, p.1 < C) →
      ((List.range C).map
        (fun c => ((pairs.filter (fun p => p.1 == c)).map (fun p => p.2)).sum)).sum =
        (pairs.map (fun p => p.2)).sum := by
  intro pairs
  induction pairs with
  | nil => simp
  | cons p pairs ih =>
    intro h
    have hp : p.1 < C := h p (List.mem_cons_self _ _)
    have ihh := ih (fun q hq => h q (List.mem_cons_of_mem _ hq))
    have hpt : ∀ c : ℕ,
        (((p :: pairs).filter (fun q => q.1 == c)).map (fun q => q.2)).sum =
          (if p.1 = c then p.2 else 0) +
            ((pairs.filter (fun q => q.1 == c)).map (fun q => q.2)).sum := by
      intro c
      by_cases hc : p.1 = c
      · simp [List.filter_cons, hc]
      · simp [List.filter_cons, hc]
    calc ((List.range C).map
          (fun c => (((p :: pairs).filter (fun q => q.1 == c)).map (fun q => q.2)).sum)).sum
        = ((List.range C).map
          (fun c => (if p.1 = c then p.2 else 0) +
            ((pairs.filter (fun q => q.1 == c)).map (fun q => q.2)).sum)).sum := by
          simp only [hpt]
      _ = ((List.range C).map (fun c => if p.1 = c then p.2 else 0)).sum +
            ((List.range C).map
              (fun c => ((pairs.filter (fun q => q.1 == c)).map (fun q => q.2)).sum)).sum :=
          sum_map_add _ _ _
      _ = p.2 + (pairs.map (fun q => q.2)).sum := by
          rw [sum_range_indicator, if_pos hp, ihh]
      _ = ((p :: pairs).map (fun q => q.2)).sum := by simp

theorem map_snd_zip_of_length_eq :
    ∀ (chs : List ℕ) (ws : List ℚ), chs.length = ws.length →
      ((chs.zip ws).map (fun p => p.2)) = ws := by
  intro chs
  induction chs with
  | nil =>
    intro ws h
    cases ws with
    | nil => rfl
    | cons w ws => simp at h
  | cons c chs ih =>
    intro ws h
    cases ws with
    | nil => simp at h
    | cons w ws =>
      have h' : chs.length = ws.length := by simpa using h
      simp [ih ws h']

theorem scatterAdd_sum_eq (C : ℕ) (chs : List ℕ) (ws : List ℚ)
    (hlen : chs.length = ws.length) (h : ∀ c ∈ chs, c < C) :
    (scatterAdd C chs ws).sum = ws.sum := by
  unfold scatterAdd
  have hp : ∀ p ∈ chs.zip ws, p.1 < C := by
    intro p hp
    obtain ⟨a, b⟩ := p
    exact h a (List.of_mem_zip hp).1
  rw [scatterAdd_pairs_sum C (chs.zip ws) hp, map_snd_zip_of_length_eq chs ws hlen]

/-- Every channel index produced by nearest-sampling the class mask is below
the channel count `C = mask.max() + 1` (out-of-grid samples yield channel
`0`). -/
theorem sampleNearestMask_lt (M : MaskVol) (g : V3) :
    sampleNearestMask M g < numChannels M := by
  unfold sampleNearestMask maskValAt numChannels
  split_ifs with h
  · rcases Nat.lt_or_ge ((round (unnormalize g.x M.dims.nx)).toNat * (M.dims.ny * M.dims.nz) +
      (round (unnormalize g.y M.dims.ny)).toNat * M.dims.nz +
      (round (unnormalize g.z M.dims.nz)).toNat) M.data.length with hlt | hge
    · have hne : M.data ≠ [] := by
        intro hnil
        rw [hnil] at hlt
        simp at hlt
      obtain ⟨mv, hmv⟩ := listMax_isSome hne
      have hmem : M.data.getD ((round (unnormalize g.x M.dims.nx)).toNat *
          (M.dims.ny * M.dims.nz) + (round (unnormalize g.y M.dims.ny)).toNat * M.dims.nz +
          (round (unnormalize g.z M.dims.nz)).toNat) 0 ∈ M.data := by
        rw [List.getD_eq_getElem?_getD, List.getElem?_eq_getElem hlt]
        exact List.getElem_mem _
      have := listMax_ge hmv _ hmem
      rw [hmv, Option.getD_some]
      omega
    · rw [List.getD_eq_getElem?_getD, List.getElem?_eq_none (by omega)]
      simp
  · omega

theorem siddon_channels_length (V : Volume) (M : MaskVol) (r : Ray) (eps : ℚ)
    (alphas : List ℚ) :
    (rayChannels M r eps alphas).length = (siddonRayTerms V r eps alphas).length := by
  unfold rayChannels siddonRayTerms midpoints diffs
  simp

theorem trilinear_channels_length (V : Volume) (M : MaskVol) (r : Ray) (eps : ℚ)
    (alphas : List ℚ) :
    (trilinearChannels M r eps alphas).length = (trilinearRayTerms V r eps alphas).length := by
  unfold trilinearChannels trilinearRayTerms
  simp

theorem list_sum_map_cast_mul (l : List ℚ) (b : ℝ) :
    ((l.map (fun q : ℚ => ((q : ℚ) : ℝ) * b)).sum) = ((l.sum : ℚ) : ℝ) * b := by
  induction l with
  | nil => simp
  | cons a l ih =>
    simp only [List.map_cons, List.sum_cons, ih]
    push_cast
    ring

/-- C10: for every volume, ray batch and class mask, summing each ray's
per-class outputs over all `C = mask.max() + 1` channels yields exactly the
scalar output of the same renderer with no mask — for both the exact
(Siddon) and the fixed-step (Trilinear) renderer.  (The hypothesis that the
mask is nonempty mirrors `mask.max()`, which raises on an empty tensor.) -/
theorem renderers_channel_sum_conservation (V : Volume) (M : MaskVol) (rays : List Ray)
    (eps near far : ℚ) (nPoints : ℕ) (filt : Bool) (hM : M.data ≠ []) :
    (siddonForwardMasked V M rays eps filt).map List.sum = siddonForward V rays eps filt ∧
    (trilinearForwardMasked V M rays eps near far nPoints filt).map List.sum =
      trilinearForward V rays eps near far nPoints filt := by
  constructor
  · unfold siddonForwardMasked siddonForward
    rw [List.map_map]
    apply List.map_congr_left
    intro r hr
    simp only [Function.comp]
    rw [list_sum_map_cast_mul, scatterAdd_sum_eq _ _ _
      (siddon_channels_length V M r eps _)
      (by
        intro c hc
        unfold rayChannels at hc
        obtain ⟨α, -, rfl⟩ := List.mem_map.mp hc
        exact sampleNearestMask_lt M _), siddonRaySum]
  · unfold trilinearForwardMasked trilinearForward
    rw [List.map_map]
    apply List.map_congr_left
    intro r hr
    simp only [Function.comp]
    rw [list_sum_map_cast_mul, scatterAdd_sum_eq _ _ _
      (trilinear_channels_length V M r eps _)
      (by
        intro c hc
        unfold trilinearChannels at hc
        obtain ⟨α, -, rfl⟩ := List.mem_map.mp hc
        exact sampleNearestMask_lt M _)]

/-- Witness for C10 on a one-voxel volume, a one-label mask and a single
ray. -/
theorem renderers_channel_sum_conservation_witness :
    ((⟨⟨1, 1, 1⟩, [0]⟩ : MaskVol).data ≠ []) ∧
    (siddonForwardMasked ⟨⟨1, 1, 1⟩, [5]⟩ ⟨⟨1, 1, 1⟩, [0]⟩ [rayA] 1 true).map List.sum =
      siddonForward ⟨⟨1, 1, 1⟩, [5]⟩ [rayA] 1 true ∧
    (trilinearForwardMasked ⟨⟨1, 1, 1⟩, [5]⟩ ⟨⟨1, 1, 1⟩, [0]⟩ [rayA] 1 0 1 4 true).map
        List.sum =
      trilinearForward ⟨⟨1, 1, 1⟩, [5]⟩ [rayA] 1 0 1 4 true := by
  have h := renderers_channel_sum_conservation ⟨⟨1, 1, 1⟩, [5]⟩ ⟨⟨1, 1, 1⟩, [0]⟩ [rayA]
    1 0 1 4 true (by decide)
  exact ⟨by decide, h.1, h.2⟩

end DiffDRR
